import Mathlib

/-!
Shallow embedding of `apyori.py` (Apriori association-rule mining).

Conventions of the embedding:
* Python `frozenset` items become `Finset α` over a linearly ordered item
  type `α` (the design notes require items to be hashable and totally
  ordered; iteration over a Python set is determinized here by sorting).
* Python floats become `ℚ`; `float` division `x / 0` cannot occur on the
  paths exercised by the pipeline, and `ℚ` division totalizes it as `0`.
* The Python dict `__transaction_index_map` (insertion ordered) becomes an
  association list `List (α × Finset ℕ)`.
* Generators become eagerly computed lists, in the same element order.
* The unbounded `while candidates:` loop of `gen_support_records` becomes a
  fuel-indexed recursion; `fuel = number of distinct items + 1` levels is
  sufficient, because level-`k` candidates are `k`-element subsets of the
  distinct-item universe, so beyond that bound the candidate list is empty.
-/

section Apyori

variable {α : Type} [LinearOrder α]

/-- `SupportRecord = namedtuple('SupportRecord', ('items', 'support'))`. -/
structure SupportRecord (α : Type) where
  items : Finset α
  support : ℚ
deriving DecidableEq

/-- `OrderedStatistic = namedtuple('OrderedStatistic',
('items_base', 'items_add', 'confidence', 'lift'))`. -/
structure OrderedStatistic (α : Type) where
  items_base : Finset α
  items_add : Finset α
  confidence : ℚ
  lift : ℚ
deriving DecidableEq

/-- `RelationRecord = namedtuple('RelationRecord',
SupportRecord._fields + ('ordered_statistics',))`. -/
structure RelationRecord (α : Type) where
  items : Finset α
  support : ℚ
  ordered_statistics : List (OrderedStatistic α)
deriving DecidableEq

/-- State of the `TransactionManager` class: the transaction counter
`__num_transaction`, the first-seen distinct item list `__items`, and the
insertion-ordered dict `__transaction_index_map`. -/
structure TransactionManager (α : Type) where
  num_transaction : ℕ
  items : List α
  transaction_index_map : List (α × Finset ℕ)
deriving DecidableEq

/-- Python dict lookup `self.__transaction_index_map.get(item)`. -/
def lookupIndex [DecidableEq α] : List (α × Finset ℕ) → α → Option (Finset ℕ)
  | [], _ => none
  | (k, v) :: rest, a => if a = k then some v else lookupIndex rest a

/-- Python dict in-place value update `self.__transaction_index_map[item] = s`
for a key already present (keys keep their insertion position). -/
def updateIndex [DecidableEq α] :
    List (α × Finset ℕ) → α → Finset ℕ → List (α × Finset ℕ)
  | [], _, _ => []
  | (k, v) :: rest, a, s =>
    if a = k then (k, s) :: rest else (k, v) :: updateIndex rest a s

/-- `self.__transaction_index_map.get(item)`. -/
def TransactionManager.lookup (tm : TransactionManager α) (item : α) :
    Option (Finset ℕ) :=
  lookupIndex tm.transaction_index_map item

/-- The posting set of an item (`∅` for an unregistered item). -/
def TransactionManager.postings (tm : TransactionManager α) (item : α) :
    Finset ℕ :=
  (tm.lookup item).getD ∅

/-- One iteration of the loop body of `add_transaction`: register the item on
first sight (append to `__items`, create an empty posting set) and add the
current transaction id to the item's posting set. -/
def addTransactionItem (tid : ℕ) (tm : TransactionManager α) (item : α) :
    TransactionManager α :=
  match tm.lookup item with
  | none =>
    { tm with
      items := tm.items ++ [item]
      transaction_index_map := tm.transaction_index_map ++ [(item, {tid})] }
  | some indexes =>
    { tm with
      transaction_index_map :=
        updateIndex tm.transaction_index_map item (insert tid indexes) }

/-- `TransactionManager.add_transaction`: the item loop followed by
`self.__num_transaction += 1`. -/
def TransactionManager.add_transaction (tm : TransactionManager α)
    (transaction : List α) : TransactionManager α :=
  let tm2 := transaction.foldl (addTransactionItem tm.num_transaction) tm
  { tm2 with num_transaction := tm2.num_transaction + 1 }

/-- `TransactionManager.__init__` / `TransactionManager.create` on a raw
transaction list: add every transaction to the empty manager. -/
def TransactionManager.create (transactions : List (List α)) :
    TransactionManager α :=
  transactions.foldl TransactionManager.add_transaction ⟨0, [], []⟩

/-- The intersection loop of `calc_support`: `sum_indexes` starts as `None`,
each item's posting set is looked up (`None` lookup short-circuits the whole
call, modelled by the outer `none`), and successive posting sets are
intersected. -/
def interLoop (tm : TransactionManager α) :
    List α → Option (Finset ℕ) → Option (Option (Finset ℕ))
  | [], acc => some acc
  | item :: rest, acc =>
    match tm.lookup item with
    | none => none
    | some indexes =>
      interLoop tm rest
        (some (match acc with
          | none => indexes
          | some s => s ∩ indexes))

/-- `TransactionManager.calc_support`: 1.0 for the empty itemset, 0.0 when a
lookup fails, otherwise the size of the intersected posting sets divided by
`__num_transaction`.  (The `some none` branch corresponds to Python taking
`len(None)`, which is unreachable because the itemset is non-empty.) -/
def TransactionManager.calc_support (tm : TransactionManager α)
    (items : Finset α) : ℚ :=
  if items = ∅ then 1
  else
    match interLoop tm (items.sort (· ≤ ·)) none with
    | none => 0
    | some none => 0
    | some (some sum_indexes) =>
      (sum_indexes.card : ℚ) / (tm.num_transaction : ℚ)

/-- `TransactionManager.initial_candidates`: one singleton per distinct item,
in first-seen order. -/
def TransactionManager.initial_candidates (tm : TransactionManager α) :
    List (Finset α) :=
  tm.items.map fun item => ({item} : Finset α)

/-- `create_next_candidates(prev_candidates, length)`: collect the item
universe of the previous candidates, enumerate its `length`-combinations
(`itertools.combinations` over the sorted universe), and for `length > 2`
keep only candidates whose every `(length-1)`-subset is a previous
candidate. -/
def create_next_candidates (prev_candidates : Finset (Finset α))
    (length : ℕ) : List (Finset α) :=
  let items : Finset α := prev_candidates.sup id
  let check_subsets : Finset α → Bool := fun candidate =>
    decide (∀ s ∈ candidate.powersetCard (length - 1), s ∈ prev_candidates)
  (((items.sort (· ≤ ·)).sublistsLen length).map List.toFinset).filter
    fun candidate => decide (length ≤ 2) || check_subsets candidate

/-- The truthiness test `if max_length and length > max_length:` guarding the
`break` in `gen_support_records` (`None` and `0` are falsy). -/
def maxLengthBreak (max_length : Option ℤ) (length : ℕ) : Bool :=
  match max_length with
  | none => false
  | some m => decide (m ≠ 0) && decide ((length : ℤ) > m)

/-- Fuel-indexed body of the `while candidates:` loop of
`gen_support_records`.  Each fuel step processes one level: filter the
candidates by support, emit their records, then either break on the
`max_length` bound or generate the next level's candidates. -/
def gen_support_records_aux (tm : TransactionManager α) (min_support : ℚ)
    (max_length : Option ℤ) :
    ℕ → List (Finset α) → ℕ → List (SupportRecord α)
  | 0, _, _ => []
  | fuel + 1, candidates, length =>
    if candidates = [] then []
    else
      let relations := candidates.filter fun c =>
        decide (min_support ≤ tm.calc_support c)
      let records : List (SupportRecord α) :=
        relations.map fun c => ⟨c, tm.calc_support c⟩
      if maxLengthBreak max_length (length + 1) then records
      else
        records ++
          gen_support_records_aux tm min_support max_length fuel
            (create_next_candidates relations.toFinset (length + 1))
            (length + 1)

/-- `gen_support_records(transaction_manager, min_support, max_length)` with
sufficient fuel: one more level than there are distinct items. -/
def gen_support_records (tm : TransactionManager α) (min_support : ℚ)
    (max_length : Option ℤ) : List (SupportRecord α) :=
  gen_support_records_aux tm min_support max_length (tm.items.length + 1)
    tm.initial_candidates 1

/-- `gen_ordered_statistics(transaction_manager, record)`: for every
`(len(items) - 1)`-combination `items_base` of the record's itemset, the
statistic with consequent `items_add = items - items_base`,
`confidence = record.support / support(items_base)` and
`lift = confidence / support(items_add)`. -/
def gen_ordered_statistics (tm : TransactionManager α)
    (record : SupportRecord α) : List (OrderedStatistic α) :=
  let items := record.items
  let combination_sets : List (Finset α) :=
    ((items.sort (· ≤ ·)).sublistsLen (items.card - 1)).map List.toFinset
  combination_sets.map fun items_base =>
    let items_add := items \ items_base
    let confidence := record.support / tm.calc_support items_base
    let lift := confidence / tm.calc_support items_add
    ⟨items_base, items_add, confidence, lift⟩

/-- The keyword arguments of `apriori` (`kwargs.get` with a `none` for an
absent keyword). -/
structure AprioriKwargs where
  min_support : Option ℚ
  max_length : Option ℤ
  min_confidence : Option ℚ
deriving DecidableEq

/-- `apriori(transactions, **kwargs)`: resolve the keyword arguments
(`min_support` defaults to 0.1, `max_length` to `None`, `min_confidence` to
0.0), build the transaction manager, generate support records, and keep a
relation record per support record whose confidence-filtered statistics are
non-empty. -/
def apriori (transactions : List (List α)) (kwargs : AprioriKwargs) :
    List (RelationRecord α) :=
  let min_support := kwargs.min_support.getD (1 / 10)
  let max_length := kwargs.max_length
  let min_confidence := kwargs.min_confidence.getD 0
  let transaction_manager := TransactionManager.create transactions
  let support_records :=
    gen_support_records transaction_manager min_support max_length
  support_records.filterMap fun support_record =>
    let ordered_statistics :=
      gen_ordered_statistics transaction_manager support_record
    let filtered_ordered_statistics := ordered_statistics.filter fun x =>
      decide (min_confidence ≤ x.confidence)
    if filtered_ordered_statistics = [] then none
    else
      some ⟨support_record.items, support_record.support,
            filtered_ordered_statistics⟩

/-- The Python format `'{2:.8f}'.format(q)`: fixed-point rendering with 8
decimal places (rounding idealized over `ℚ`; every value printed by the
pipeline is non-negative). -/
def fmt8 (q : ℚ) : String :=
  let n : ℤ := ⌊q * 100000000 + 1 / 2⌋
  let sign := if n < 0 then "-" else ""
  let m := n.natAbs
  let ip := m / 100000000
  let fp := m % 100000000
  let fs := Nat.repr fp
  sign ++ Nat.repr ip ++ "." ++
    String.mk (List.replicate (8 - fs.length) '0') ++ fs

/-- `list(s)[0]` for a singleton frozenset, rendered with the item printer
(the guards in `dump_as_two_item_tsv` ensure the set is a singleton). -/
def singleItemStr (itemStr : α → String) (s : Finset α) : String :=
  match s.sort (· ≤ ·) with
  | [x] => itemStr x
  | _ => ""

/-- One output line of `dump_as_two_item_tsv`:
`'{0}\t{1}\t{2:.8f}\t{3:.8f}\t{4:.8f}\n'`. -/
def statLine (itemStr : α → String) (support : ℚ)
    (st : OrderedStatistic α) : String :=
  singleItemStr itemStr st.items_base ++ "\t" ++
    singleItemStr itemStr st.items_add ++ "\t" ++
    fmt8 support ++ "\t" ++ fmt8 st.confidence ++ "\t" ++
    fmt8 st.lift ++ "\n"

/-- The statistics loop of `dump_as_two_item_tsv`: a non-singleton
antecedent or consequent executes `return`, abandoning the rest of the
record's statistics; otherwise one line is written per statistic.  The
function value is the text written to the output file. -/
def dump_as_two_item_tsv (itemStr : α → String) (support : ℚ) :
    List (OrderedStatistic α) → String
  | [] => ""
  | st :: rest =>
    if st.items_base.card ≠ 1 then ""
    else if st.items_add.card ≠ 1 then ""
    else statLine itemStr support st ++ dump_as_two_item_tsv itemStr support rest

/-- `dump_as_two_item_tsv(record, output_file)` on a whole relation record. -/
def dumpRecordTsv (itemStr : α → String) (record : RelationRecord α) :
    String :=
  dump_as_two_item_tsv itemStr record.support record.ordered_statistics

/-- The `min_support` validation performed by the command-line front end
`parse_args` (`if args.min_support <= 0: raise ValueError(...)`). -/
def parse_args_min_support_check (min_support : ℚ) : Except String ℚ :=
  if min_support ≤ 0 then Except.error "min support must be > 0"
  else Except.ok min_support

/-- The set-theoretic intersection of the posting sets of the items of a
(non-empty) itemset, carved out of the transaction-id range.  For an index
built by `TransactionManager.create` every posting set lives inside
`range num_transaction`, so this is exactly the intersection of the queried
items' posting sets. -/
def postingsInter (tm : TransactionManager α) (items : Finset α) :
    Finset ℕ :=
  (Finset.range tm.num_transaction).filter fun t =>
    ∀ i ∈ items, t ∈ tm.postings i

/-- The level-indexed candidate sequence of the support scanner, the state
machine the spec describes for the level-wise loop: level 1 holds the
initial singleton candidates; level `k+1` is empty when the loop has
already stopped (level `k` had no candidates, or the `max_length` bound
broke the loop after scanning level `k`), and otherwise holds the candidate
generator's output on the support-filtered (accepted) candidates of level
`k`.  The scanner's output is characterized exactly against this sequence:
a record is emitted iff its itemset is a candidate of some level and its
support passes `min_support`. -/
def level_candidates (tm : TransactionManager α) (ms : ℚ)
    (ml : Option ℤ) : ℕ → List (Finset α)
  | 0 => []
  | 1 => tm.initial_candidates
  | L + 2 =>
    if level_candidates tm ms ml (L + 1) = [] then []
    else if maxLengthBreak ml (L + 2) then []
    else
      create_next_candidates
        ((level_candidates tm ms ml (L + 1)).filter fun c =>
          decide (ms ≤ tm.calc_support c)).toFinset (L + 2)

end Apyori

section ApyoriProofs

variable {α : Type} [LinearOrder α]

/-! ### Index bookkeeping lemmas (`add_transaction` and `create`) -/

theorem lookupIndex_append (l l2 : List (α × Finset ℕ)) (b : α) :
    lookupIndex (l ++ l2) b =
      match lookupIndex l b with
      | some v => some v
      | none => lookupIndex l2 b := by
  induction l with
  | nil => simp [lookupIndex]
  | cons kv rest ih =>
    obtain ⟨k, v⟩ := kv
    by_cases hb : b = k <;> simp [lookupIndex, hb, ih]

theorem lookupIndex_updateIndex (l : List (α × Finset ℕ)) (a b : α)
    (s : Finset ℕ) :
    lookupIndex (updateIndex l a s) b =
      if b = a ∧ (lookupIndex l a).isSome then some s
      else lookupIndex l b := by
  induction l with
  | nil => simp [lookupIndex, updateIndex]
  | cons kv rest ih =>
    obtain ⟨k, v⟩ := kv
    by_cases hak : a = k
    · subst hak
      by_cases hba : b = a <;> simp [lookupIndex, updateIndex, hba]
    · have hka : ¬ a = k := hak
      by_cases hbk : b = k
      · subst hbk
        have hba : ¬ b = a := fun h => hak h.symm
        simp [lookupIndex, updateIndex, hba, hka]
      · simp [lookupIndex, updateIndex, hbk, hka, ih]

theorem addTransactionItem_num (tid : ℕ) (tm : TransactionManager α)
    (item : α) :
    (addTransactionItem tid tm item).num_transaction = tm.num_transaction := by
  unfold addTransactionItem
  cases tm.lookup item <;> rfl

theorem addTransactionItem_lookup (tid : ℕ) (tm : TransactionManager α)
    (item b : α) :
    (addTransactionItem tid tm item).lookup b =
      if b = item then some (insert tid (tm.postings b))
      else tm.lookup b := by
  unfold addTransactionItem
  cases h : tm.lookup item with
  | none =>
    show lookupIndex (tm.transaction_index_map ++ [(item, {tid})]) b = _
    rw [lookupIndex_append]
    by_cases hb : b = item
    · subst hb
      have : lookupIndex tm.transaction_index_map b = none := h
      simp [this, lookupIndex, TransactionManager.postings,
        TransactionManager.lookup, h]
    · cases h2 : lookupIndex tm.transaction_index_map b <;>
        simp [hb, lookupIndex, TransactionManager.lookup, h2]
  | some s =>
    show lookupIndex (updateIndex tm.transaction_index_map item
      (insert tid s)) b = _
    rw [lookupIndex_updateIndex]
    by_cases hb : b = item
    · subst hb
      have hs : lookupIndex tm.transaction_index_map b = some s := h
      simp [hs, TransactionManager.postings, TransactionManager.lookup]
    · simp [hb, TransactionManager.lookup]

theorem addTransactionItem_postings (tid : ℕ) (tm : TransactionManager α)
    (item b : α) :
    (addTransactionItem tid tm item).postings b =
      if b = item then insert tid (tm.postings b) else tm.postings b := by
  unfold TransactionManager.postings
  rw [addTransactionItem_lookup]
  by_cases hb : b = item <;> simp [hb, TransactionManager.postings]

theorem foldl_addTransactionItem_num (tid : ℕ) (tr : List α)
    (tm : TransactionManager α) :
    (tr.foldl (addTransactionItem tid) tm).num_transaction =
      tm.num_transaction := by
  induction tr generalizing tm with
  | nil => rfl
  | cons x rest ih => rw [List.foldl_cons, ih, addTransactionItem_num]

theorem foldl_addTransactionItem_lookup (tid : ℕ) (tr : List α)
    (tm : TransactionManager α) (b : α) :
    (tr.foldl (addTransactionItem tid) tm).lookup b =
      if b ∈ tr then some (insert tid (tm.postings b)) else tm.lookup b := by
  induction tr generalizing tm with
  | nil => simp
  | cons x rest ih =>
    rw [List.foldl_cons, ih]
    by_cases hx : b = x
    · subst hx
      by_cases hr : b ∈ rest
      · simp [hr, addTransactionItem_postings, Finset.insert_idem]
      · simp [hr, addTransactionItem_lookup]
    · rw [addTransactionItem_postings, if_neg hx, addTransactionItem_lookup,
        if_neg hx]
      simp [hx]

theorem add_transaction_num (tm : TransactionManager α) (tr : List α) :
    (tm.add_transaction tr).num_transaction = tm.num_transaction + 1 := by
  show (tr.foldl (addTransactionItem tm.num_transaction)
    tm).num_transaction + 1 = _
  rw [foldl_addTransactionItem_num]

theorem add_transaction_lookup (tm : TransactionManager α) (tr : List α)
    (b : α) :
    (tm.add_transaction tr).lookup b =
      if b ∈ tr then some (insert tm.num_transaction (tm.postings b))
      else tm.lookup b := by
  show (tr.foldl (addTransactionItem tm.num_transaction) tm).lookup b = _
  exact foldl_addTransactionItem_lookup tm.num_transaction tr tm b

theorem add_transaction_postings (tm : TransactionManager α) (tr : List α)
    (b : α) :
    (tm.add_transaction tr).postings b =
      if b ∈ tr then insert tm.num_transaction (tm.postings b)
      else tm.postings b := by
  unfold TransactionManager.postings
  rw [add_transaction_lookup]
  by_cases hb : b ∈ tr <;> simp [hb, TransactionManager.postings]

theorem create_append_singleton (ts : List (List α)) (tr : List α) :
    TransactionManager.create (ts ++ [tr]) =
      (TransactionManager.create ts).add_transaction tr := by
  unfold TransactionManager.create
  rw [List.foldl_append]
  rfl

theorem create_num (ts : List (List α)) :
    (TransactionManager.create ts).num_transaction = ts.length := by
  induction ts using List.reverseRecOn with
  | nil => rfl
  | append_singleton l tr ih =>
    rw [create_append_singleton, add_transaction_num, ih]
    simp

theorem create_postings_mem (ts : List (List α)) (i : α) (t : ℕ) :
    t ∈ (TransactionManager.create ts).postings i ↔
      ∃ h : t < ts.length, i ∈ ts.get ⟨t, h⟩ := by
  induction ts using List.reverseRecOn with
  | nil =>
    simp [TransactionManager.create, TransactionManager.postings,
      TransactionManager.lookup, lookupIndex]
  | append_singleton l tr ih =>
    rw [create_append_singleton, add_transaction_postings, create_num]
    by_cases hmem : i ∈ tr
    · rw [if_pos hmem]
      rw [Finset.mem_insert, ih]
      constructor
      · rintro (rfl | ⟨h, hg⟩)
        · refine ⟨by simp, ?_⟩
          rw [List.get_eq_getElem, List.getElem_append_right (le_refl _)]
          simpa using hmem
        · refine ⟨by simp [Nat.lt_succ_of_lt h], ?_⟩
          rw [List.get_eq_getElem, List.getElem_append_left h]
          simpa [List.get_eq_getElem] using hg
      · rintro ⟨h, hg⟩
        rcases Nat.lt_succ_iff_lt_or_eq.mp (by simpa using h) with h2 | rfl
        · refine Or.inr ⟨h2, ?_⟩
          rw [List.get_eq_getElem, List.getElem_append_left h2] at hg
          simpa [List.get_eq_getElem] using hg
        · exact Or.inl rfl
    · rw [if_neg hmem, ih]
      constructor
      · rintro ⟨h, hg⟩
        refine ⟨by simp [Nat.lt_succ_of_lt h], ?_⟩
        rw [List.get_eq_getElem, List.getElem_append_left h]
        simpa [List.get_eq_getElem] using hg
      · rintro ⟨h, hg⟩
        rcases Nat.lt_succ_iff_lt_or_eq.mp (by simpa using h) with h2 | rfl
        · refine ⟨h2, ?_⟩
          rw [List.get_eq_getElem, List.getElem_append_left h2] at hg
          simpa [List.get_eq_getElem] using hg
        · rw [List.get_eq_getElem, List.getElem_append_right (le_refl _)]
            at hg
          simp at hg
          exact absurd hg hmem

theorem create_postings_sub_range (ts : List (List α)) (i : α) :
    (TransactionManager.create ts).postings i ⊆
      Finset.range (TransactionManager.create ts).num_transaction := by
  intro t ht
  rw [create_postings_mem] at ht
  rw [Finset.mem_range, create_num]
  exact ht.1

/-! ### `calc_support` characterization -/

theorem interLoop_eq_none (tm : TransactionManager α) (l : List α)
    (acc : Option (Finset ℕ)) (i : α) (hi : i ∈ l)
    (h : tm.lookup i = none) : interLoop tm l acc = none := by
  induction l generalizing acc with
  | nil => cases hi
  | cons x rest ih =>
    rcases List.mem_cons.mp hi with rfl | hr
    · simp [interLoop, h]
    · cases hx : tm.lookup x with
      | none => simp [interLoop, hx]
      | some v =>
        simp only [interLoop, hx]
        exact ih _ hr

theorem interLoop_all_some (tm : TransactionManager α) (l : List α)
    (h : ∀ i ∈ l, (tm.lookup i).isSome) (s : Finset ℕ) :
    interLoop tm l (some s) =
      some (some (l.foldl (fun acc i => acc ∩ tm.postings i) s)) := by
  induction l generalizing s with
  | nil => simp [interLoop]
  | cons x rest ih =>
    obtain ⟨v, hv⟩ := Option.isSome_iff_exists.mp (h x (List.mem_cons_self x rest))
    have hrest : ∀ i ∈ rest, (tm.lookup i).isSome := fun i hi =>
      h i (List.mem_cons_of_mem x hi)
    simp only [interLoop, hv, List.foldl_cons]
    rw [ih hrest]
    have : tm.postings x = v := by simp [TransactionManager.postings, hv]
    rw [this]

theorem foldl_inter_mem (tm : TransactionManager α) (l : List α)
    (s : Finset ℕ) (t : ℕ) :
    (t ∈ l.foldl (fun acc i => acc ∩ tm.postings i) s) ↔
      t ∈ s ∧ ∀ i ∈ l, t ∈ tm.postings i := by
  induction l generalizing s with
  | nil => simp
  | cons x rest ih =>
    rw [List.foldl_cons, ih]
    simp only [Finset.mem_inter, List.mem_cons]
    constructor
    · rintro ⟨⟨hts, htx⟩, hall⟩
      exact ⟨hts, fun i hi => by
        rcases hi with rfl | hi
        · exact htx
        · exact hall i hi⟩
    · rintro ⟨hts, hall⟩
      exact ⟨⟨hts, hall x (Or.inl rfl)⟩, fun i hi => hall i (Or.inr hi)⟩

theorem calc_support_empty (tm : TransactionManager α) :
    tm.calc_support ∅ = 1 := by
  simp [TransactionManager.calc_support]

theorem calc_support_eq_zero_of_unreg (tm : TransactionManager α)
    (items : Finset α) (hne : items ≠ ∅) (i : α) (hi : i ∈ items)
    (h : tm.lookup i = none) : tm.calc_support items = 0 := by
  unfold TransactionManager.calc_support
  rw [if_neg hne,
    interLoop_eq_none tm _ none i ((Finset.mem_sort (α := α) (· ≤ ·)).mpr hi) h]

theorem calc_support_all_some (tm : TransactionManager α) (items : Finset α)
    (hne : items ≠ ∅) (hreg : ∀ i ∈ items, (tm.lookup i).isSome) :
    ∃ S : Finset ℕ,
      tm.calc_support items = (S.card : ℚ) / (tm.num_transaction : ℚ)
        ∧ ∀ t, t ∈ S ↔ ∀ i ∈ items, t ∈ tm.postings i := by
  cases hs : items.sort (· ≤ ·) with
  | nil =>
    exfalso
    apply hne
    have hc : items.card = 0 := by
      rw [← Finset.length_sort (α := α) (· ≤ ·), hs]
      rfl
    exact Finset.card_eq_zero.mp hc
  | cons x rest =>
    have hmemlist : ∀ i : α, i ∈ items ↔ i ∈ x :: rest := by
      intro i
      rw [← hs, Finset.mem_sort]
    have hx : x ∈ items := (hmemlist x).mpr (List.mem_cons_self x rest)
    obtain ⟨v, hv⟩ := Option.isSome_iff_exists.mp (hreg x hx)
    have hrest : ∀ i ∈ rest, (tm.lookup i).isSome := fun i hi =>
      hreg i ((hmemlist i).mpr (List.mem_cons_of_mem x hi))
    refine ⟨rest.foldl (fun acc i => acc ∩ tm.postings i) v, ?_, ?_⟩
    · unfold TransactionManager.calc_support
      rw [if_neg hne, hs]
      simp only [interLoop, hv]
      rw [interLoop_all_some tm rest hrest v]
    · intro t
      rw [foldl_inter_mem]
      have hpx : tm.postings x = v := by simp [TransactionManager.postings, hv]
      constructor
      · rintro ⟨htv, hall⟩ i hi
        rcases List.mem_cons.mp ((hmemlist i).mp hi) with rfl | hi2
        · rw [hpx]; exact htv
        · exact hall i hi2
      · intro hall
        refine ⟨by rw [← hpx]; exact hall x hx, fun i hi => ?_⟩
        exact hall i ((hmemlist i).mpr (List.mem_cons_of_mem x hi))

theorem calc_support_nonneg (tm : TransactionManager α) (items : Finset α) :
    0 ≤ tm.calc_support items := by
  unfold TransactionManager.calc_support
  by_cases he : items = ∅
  · simp [he]
  · rw [if_neg he]
    cases h : interLoop tm (items.sort (· ≤ ·)) none with
    | none => exact le_refl 0
    | some o =>
      cases o with
      | none => exact le_refl 0
      | some S => exact div_nonneg (Nat.cast_nonneg _) (Nat.cast_nonneg _)

theorem calc_support_le_one (ts : List (List α)) (items : Finset α) :
    (TransactionManager.create ts).calc_support items ≤ 1 := by
  by_cases he : items = ∅
  · rw [he, calc_support_empty]
  · by_cases hreg : ∀ i ∈ items, ((TransactionManager.create ts).lookup
      i).isSome
    · obtain ⟨S, hval, hmem⟩ :=
        calc_support_all_some (TransactionManager.create ts) items he hreg
      rw [hval]
      obtain ⟨i0, hi0⟩ := Finset.nonempty_iff_ne_empty.mpr he
      have hsub : S ⊆ Finset.range
          (TransactionManager.create ts).num_transaction := by
        intro t ht
        exact create_postings_sub_range ts i0 ((hmem t).mp ht i0 hi0)
      have hcard : S.card ≤ (TransactionManager.create ts).num_transaction :=
        le_trans (Finset.card_le_card hsub) (by rw [Finset.card_range])
      rcases Nat.eq_zero_or_pos
          (TransactionManager.create ts).num_transaction with hN | hN
      · rw [hN]
        have : S.card = 0 := Nat.le_zero.mp (hN ▸ hcard)
        rw [this]
        norm_num
      · rw [div_le_one (by exact_mod_cast hN)]
        exact_mod_cast hcard
    · push_neg at hreg
      obtain ⟨i, hi, hnone⟩ := hreg
      rw [calc_support_eq_zero_of_unreg (TransactionManager.create ts) items
        he i hi (Option.not_isSome_iff_eq_none.mp hnone)]
      norm_num

/-! ### Claim theorems about the transaction index -/

/-- C9: after any sequence of `add_transaction` calls (folding the calls over
the transaction list, as `__init__` does), the posting set for item `i`
contains transaction id `t` iff the `t`-th added transaction (0-based)
contained `i`; the transaction counter equals the number of
`add_transaction` calls; and an empty transaction changes nothing except
incrementing the counter. -/
theorem claim_C9_index_invariant (ts : List (List α)) :
    (TransactionManager.create ts).num_transaction = ts.length
    ∧ (∀ (i : α) (t : ℕ),
        t ∈ (TransactionManager.create ts).postings i ↔
          ∃ h : t < ts.length, i ∈ ts.get ⟨t, h⟩)
    ∧ (∀ tm : TransactionManager α,
        tm.add_transaction [] =
          { tm with num_transaction := tm.num_transaction + 1 }) :=
  ⟨create_num ts, fun i t => create_postings_mem ts i t, fun _ => rfl⟩

/-- C1: on every index built by `create`, `calc_support` returns 1 on the
empty itemset; 0 on a non-empty itemset one of whose items is unregistered;
and otherwise the size of the intersection of the queried items' posting
sets divided by the transaction count (`postingsInter` being that
intersection, as its membership characterization states). -/
theorem claim_C1_calc_support_cases (ts : List (List α)) (items : Finset α) :
    (items = ∅ → (TransactionManager.create ts).calc_support items = 1)
    ∧ (items ≠ ∅ →
        (∃ i ∈ items, (TransactionManager.create ts).lookup i = none) →
        (TransactionManager.create ts).calc_support items = 0)
    ∧ (items ≠ ∅ →
        (∀ i ∈ items, (TransactionManager.create ts).lookup i ≠ none) →
        (TransactionManager.create ts).calc_support items =
          ((postingsInter (TransactionManager.create ts) items).card : ℚ) /
            ((TransactionManager.create ts).num_transaction : ℚ)
        ∧ ∀ t : ℕ,
            t ∈ postingsInter (TransactionManager.create ts) items ↔
              ∀ i ∈ items, t ∈ (TransactionManager.create ts).postings i) := by
  refine ⟨fun he => by rw [he]; exact calc_support_empty _, ?_, ?_⟩
  · rintro hne ⟨i, hi, hnone⟩
    exact calc_support_eq_zero_of_unreg _ items hne i hi hnone
  · intro hne hreg
    have hreg2 : ∀ i ∈ items,
        ((TransactionManager.create ts).lookup i).isSome := fun i hi =>
      Option.ne_none_iff_isSome.mp (hreg i hi)
    obtain ⟨S, hval, hmem⟩ :=
      calc_support_all_some (TransactionManager.create ts) items hne hreg2
    have hSeq : S = postingsInter (TransactionManager.create ts) items := by
      ext t
      rw [hmem, postingsInter, Finset.mem_filter, Finset.mem_range]
      constructor
      · intro hall
        obtain ⟨i0, hi0⟩ := Finset.nonempty_iff_ne_empty.mpr hne
        have hr := create_postings_sub_range ts i0 (hall i0 hi0)
        rw [Finset.mem_range] at hr
        exact ⟨hr, hall⟩
      · rintro ⟨_, hall⟩
        exact hall
    refine ⟨by rw [hval, hSeq], fun t => ?_⟩
    rw [← hSeq]
    exact hmem t

/-- Concrete instantiation of `claim_C1_calc_support_cases`: in the index
built from the single transaction `[0]`, the itemset `{1}` is non-empty and
contains the unregistered item `1`, so its support is 0. -/
theorem claim_C1_calc_support_cases_witness :
    (({1} : Finset ℕ) ≠ ∅)
    ∧ (TransactionManager.create [[0]]).calc_support {1} = 0 :=
  ⟨by decide, (claim_C1_calc_support_cases [[0]] {1}).2.1 (by decide)
    ⟨1, by decide, by with_unfolding_all decide⟩⟩

/-- C5: support is antitone with respect to itemset inclusion on every index
built by `create`. -/
theorem claim_C5_support_monotone (ts : List (List α)) (A B : Finset α)
    (hAB : A ⊆ B) :
    (TransactionManager.create ts).calc_support B ≤
      (TransactionManager.create ts).calc_support A := by
  by_cases hA : A = ∅
  · rw [hA, calc_support_empty]
    exact calc_support_le_one ts B
  · have hB : B ≠ ∅ := by
      intro h
      exact hA (Finset.subset_empty.mp (h ▸ hAB))
    by_cases hBreg : ∀ i ∈ B,
        ((TransactionManager.create ts).lookup i).isSome
    · have hAreg : ∀ i ∈ A,
          ((TransactionManager.create ts).lookup i).isSome := fun i hi =>
        hBreg i (hAB hi)
      obtain ⟨SA, hSAval, hSAmem⟩ :=
        calc_support_all_some (TransactionManager.create ts) A hA hAreg
      obtain ⟨SB, hSBval, hSBmem⟩ :=
        calc_support_all_some (TransactionManager.create ts) B hB hBreg
      rw [hSAval, hSBval]
      have hsub : SB ⊆ SA := by
        intro t ht
        rw [hSAmem]
        intro i hi
        exact (hSBmem t).mp ht i (hAB hi)
      rcases Nat.eq_zero_or_pos
          (TransactionManager.create ts).num_transaction with hN | hN
      · rw [hN]
        norm_num
      · have hNQ : (0:ℚ) <
            ((TransactionManager.create ts).num_transaction : ℚ) := by
          exact_mod_cast hN
        rw [div_le_div_iff_of_pos_right hNQ]
        exact_mod_cast Finset.card_le_card hsub
    · push_neg at hBreg
      obtain ⟨i, hi, hnone⟩ := hBreg
      rw [calc_support_eq_zero_of_unreg (TransactionManager.create ts) B hB
        i hi (Option.not_isSome_iff_eq_none.mp hnone)]
      exact calc_support_nonneg _ A

/-- Concrete instantiation of `claim_C5_support_monotone`: on the index of
Scenario A, `support {0} = 3/4` dominates `support {0,1} = 1/2`. -/
theorem claim_C5_support_monotone_witness :
    (({0} : Finset ℕ) ⊆ {0, 1})
    ∧ (TransactionManager.create
        [[0,1],[0,2],[0,1,2],[1,2]]).calc_support {0, 1} ≤
      (TransactionManager.create
        [[0,1],[0,2],[0,1,2],[1,2]]).calc_support {0} :=
  ⟨by decide,
    claim_C5_support_monotone [[0,1],[0,2],[0,1,2],[1,2]] {0} {0, 1}
      (by decide)⟩

/-! ### `create_next_candidates` characterization -/

theorem sorted_lt_sublist {l1 l2 : List α} (h2 : l2.Sorted (· < ·))
    (h1 : l1.Sorted (· < ·)) (hsub : ∀ x ∈ l1, x ∈ l2) : l1.Sublist l2 := by
  induction l2 generalizing l1 with
  | nil =>
    cases l1 with
    | nil => exact List.Sublist.refl []
    | cons a t => exact absurd (hsub a (List.mem_cons_self a t)) (by simp)
  | cons b t2 ih =>
    cases l1 with
    | nil => exact List.nil_sublist _
    | cons a t1 =>
      have ha : a ∈ b :: t2 := hsub a (List.mem_cons_self a t1)
      have h1t : t1.Sorted (· < ·) := (List.sorted_cons.mp h1).2
      have h2t : t2.Sorted (· < ·) := (List.sorted_cons.mp h2).2
      by_cases hab : a = b
      · subst hab
        refine List.Sublist.cons₂ a (ih h2t h1t ?_)
        intro x hx
        have hx2 : x ∈ a :: t2 := hsub x (List.mem_cons_of_mem a hx)
        rcases List.mem_cons.mp hx2 with rfl | hxt
        · exact absurd ((List.sorted_cons.mp h1).1 x hx) (lt_irrefl x)
        · exact hxt
      · have hat2 : a ∈ t2 := by
          rcases List.mem_cons.mp ha with h | h
          · exact absurd h hab
          · exact h
        have hba : b < a := (List.sorted_cons.mp h2).1 a hat2
        refine List.Sublist.cons b (ih h2t h1 ?_)
        intro x hx
        have hx2 : x ∈ b :: t2 := hsub x hx
        rcases List.mem_cons.mp hx2 with rfl | hxt
        · exfalso
          rcases List.mem_cons.mp hx with rfl | hxt1
          · exact hab rfl
          · exact absurd (hba.trans ((List.sorted_cons.mp h1).1 x hxt1))
              (lt_irrefl x)
        · exact hxt

theorem mem_sorted_combinations (s : Finset α) (k : ℕ) (c : Finset α) :
    c ∈ ((s.sort (· ≤ ·)).sublistsLen k).map List.toFinset ↔
      c ⊆ s ∧ c.card = k := by
  rw [List.mem_map]
  constructor
  · rintro ⟨l, hl, rfl⟩
    obtain ⟨hsub, hlen⟩ := List.mem_sublistsLen.mp hl
    have hnd : l.Nodup := hsub.nodup (Finset.sort_nodup (· ≤ ·) s)
    constructor
    · intro x hx
      rw [List.mem_toFinset] at hx
      exact (Finset.mem_sort (· ≤ ·)).mp (hsub.subset hx)
    · rw [List.toFinset_card_of_nodup hnd, hlen]
  · rintro ⟨hsub, hcard⟩
    refine ⟨c.sort (· ≤ ·), List.mem_sublistsLen.mpr ⟨?_, ?_⟩, ?_⟩
    · refine sorted_lt_sublist (Finset.sort_sorted_lt s)
        (Finset.sort_sorted_lt c) ?_
      intro x hx
      rw [Finset.mem_sort] at hx ⊢
      exact hsub hx
    · rw [Finset.length_sort, hcard]
    · exact Finset.sort_toFinset (· ≤ ·) c

theorem mem_create_next_candidates (prev_candidates : Finset (Finset α))
    (length : ℕ) (c : Finset α) :
    c ∈ create_next_candidates prev_candidates length ↔
      c ⊆ prev_candidates.sup id ∧ c.card = length ∧
        (2 < length →
          ∀ s ∈ c.powersetCard (length - 1), s ∈ prev_candidates) := by
  unfold create_next_candidates
  rw [List.mem_filter, mem_sorted_combinations]
  simp only [Bool.or_eq_true, decide_eq_true_eq]
  constructor
  · rintro ⟨⟨hsub, hcard⟩, hcheck⟩
    refine ⟨hsub, hcard, fun hgt => ?_⟩
    rcases hcheck with hle | hch
    · exact absurd hle (not_le.mpr hgt)
    · exact hch
  · rintro ⟨hsub, hcard, hcheck⟩
    refine ⟨⟨hsub, hcard⟩, ?_⟩
    rcases le_or_lt length 2 with hle | hgt
    · exact Or.inl hle
    · exact Or.inr (hcheck hgt)

/-- C2: `create_next_candidates prev k` produces exactly the `k`-element
subsets of the union of the items of `prev` that, when `k > 2`, have all
their `(k-1)`-element subsets in `prev` (no subset check for `k ≤ 2`); and
for every level `k ≥ 2`, a `k`-itemset whose every `(k-1)`-subset belongs
to `prev` is never omitted. -/
theorem claim_C2_candidate_generation (prev_candidates : Finset (Finset α))
    (length : ℕ) (c : Finset α) :
    (c ∈ create_next_candidates prev_candidates length ↔
      c ⊆ prev_candidates.sup id ∧ c.card = length ∧
        (2 < length →
          ∀ s ∈ c.powersetCard (length - 1), s ∈ prev_candidates))
    ∧ (2 ≤ length → c.card = length →
        (∀ s ∈ c.powersetCard (length - 1), s ∈ prev_candidates) →
        c ∈ create_next_candidates prev_candidates length) := by
  refine ⟨mem_create_next_candidates prev_candidates length c, ?_⟩
  intro h2 hcard hall
  rw [mem_create_next_candidates]
  refine ⟨?_, hcard, fun _ => hall⟩
  intro x hx
  have hlt : 1 < c.card := by omega
  obtain ⟨y, hy, hyx⟩ := Finset.exists_ne_of_one_lt_card hlt x
  have herase : c.erase y ∈ c.powersetCard (length - 1) := by
    rw [Finset.mem_powersetCard]
    exact ⟨Finset.erase_subset y c, by rw [Finset.card_erase_of_mem hy, hcard]⟩
  have hprev : c.erase y ∈ prev_candidates := hall _ herase
  have hxe : x ∈ c.erase y := Finset.mem_erase.mpr ⟨fun h => hyx h.symm, hx⟩
  exact Finset.le_sup (f := id) hprev hxe

/-- Concrete instantiation of `claim_C2_candidate_generation`: from the three
accepted 2-itemsets over `{0,1,2}`, level 3 must produce `{0,1,2}`. -/
theorem claim_C2_candidate_generation_witness :
    2 ≤ 3
    ∧ ({0,1,2} : Finset ℕ) ∈
        create_next_candidates ({ {0,1}, {0,2}, {1,2} } : Finset (Finset ℕ))
          3 :=
  ⟨by decide,
    (claim_C2_candidate_generation ({ {0,1}, {0,2}, {1,2} } :
        Finset (Finset ℕ)) 3 {0,1,2}).2
      (by decide) (by decide) (by decide)⟩

/-! ### Support-record scanning lemmas -/

theorem mem_scan_map (tm : TransactionManager α) (ms : ℚ)
    {cands : List (Finset α)} {r : SupportRecord α}
    (h : r ∈ (cands.filter fun c => decide (ms ≤ tm.calc_support c)).map
      fun c => (⟨c, tm.calc_support c⟩ : SupportRecord α)) :
    r.items ∈ cands ∧ r.support = tm.calc_support r.items ∧
      ms ≤ r.support := by
  obtain ⟨c, hcf, rfl⟩ := List.mem_map.mp h
  obtain ⟨hcc, hdec⟩ := List.mem_filter.mp hcf
  exact ⟨hcc, rfl, of_decide_eq_true hdec⟩

theorem mem_scan_map_of (tm : TransactionManager α) (ms : ℚ)
    {cands : List (Finset α)} {c : Finset α} (hc : c ∈ cands)
    (hms : ms ≤ tm.calc_support c) :
    (⟨c, tm.calc_support c⟩ : SupportRecord α) ∈
      (cands.filter fun c => decide (ms ≤ tm.calc_support c)).map
        fun c => (⟨c, tm.calc_support c⟩ : SupportRecord α) :=
  List.mem_map.mpr ⟨c, List.mem_filter.mpr ⟨hc, decide_eq_true hms⟩, rfl⟩

theorem aux_mem_split (tm : TransactionManager α) (ms : ℚ)
    (ml : Option ℤ) (fuel : ℕ) (cands : List (Finset α)) (L : ℕ)
    {r : SupportRecord α}
    (h : r ∈ gen_support_records_aux tm ms ml (fuel + 1) cands L) :
    r ∈ (cands.filter fun c => decide (ms ≤ tm.calc_support c)).map
        (fun c => (⟨c, tm.calc_support c⟩ : SupportRecord α))
      ∨ r ∈ gen_support_records_aux tm ms ml fuel
          (create_next_candidates
            (cands.filter fun c =>
              decide (ms ≤ tm.calc_support c)).toFinset (L + 1)) (L + 1) := by
  rw [gen_support_records_aux] at h
  by_cases hc : cands = []
  · rw [if_pos hc] at h
    cases h
  · rw [if_neg hc] at h
    by_cases hbr : maxLengthBreak ml (L + 1) = true
    · rw [if_pos hbr] at h
      exact Or.inl h
    · rw [if_neg hbr] at h
      exact List.mem_append.mp h

theorem aux_mem_of_mem_scan (tm : TransactionManager α) (ms : ℚ)
    (ml : Option ℤ) (fuel : ℕ) (cands : List (Finset α)) (L : ℕ)
    {c : Finset α} (hc : c ∈ cands) (hms : ms ≤ tm.calc_support c) :
    (⟨c, tm.calc_support c⟩ : SupportRecord α) ∈
      gen_support_records_aux tm ms ml (fuel + 1) cands L := by
  rw [gen_support_records_aux]
  rw [if_neg (List.ne_nil_of_mem hc)]
  by_cases hbr : maxLengthBreak ml (L + 1) = true
  · rw [if_pos hbr]
    exact mem_scan_map_of tm ms hc hms
  · rw [if_neg hbr]
    exact List.mem_append_left _ (mem_scan_map_of tm ms hc hms)

theorem aux_records_sound (tm : TransactionManager α) (ms : ℚ)
    (ml : Option ℤ) (fuel : ℕ) :
    ∀ (cands : List (Finset α)) (L : ℕ) (r : SupportRecord α),
      r ∈ gen_support_records_aux tm ms ml fuel cands L →
        r.support = tm.calc_support r.items ∧ ms ≤ r.support := by
  induction fuel with
  | zero =>
    intro cands L r h
    rw [gen_support_records_aux] at h
    cases h
  | succ fuel ih =>
    intro cands L r h
    rcases aux_mem_split tm ms ml fuel cands L h with h1 | h2
    · exact (mem_scan_map tm ms h1).2
    · exact ih _ _ r h2

theorem aux_records_card_ge (tm : TransactionManager α) (ms : ℚ)
    (ml : Option ℤ) (fuel : ℕ) :
    ∀ (cands : List (Finset α)) (L : ℕ),
      (∀ c ∈ cands, c.card = L) →
      ∀ r : SupportRecord α,
        r ∈ gen_support_records_aux tm ms ml fuel cands L →
          L ≤ r.items.card := by
  induction fuel with
  | zero =>
    intro cands L _ r h
    rw [gen_support_records_aux] at h
    cases h
  | succ fuel ih =>
    intro cands L hcards r h
    rcases aux_mem_split tm ms ml fuel cands L h with h1 | h2
    · rw [hcards r.items (mem_scan_map tm ms h1).1]
    · have hnext : ∀ c ∈ create_next_candidates
          (cands.filter fun c =>
            decide (ms ≤ tm.calc_support c)).toFinset (L + 1),
          c.card = L + 1 := fun c hc =>
        ((mem_create_next_candidates _ _ c).mp hc).2.1
      exact le_trans (Nat.le_succ L) (ih _ _ hnext r h2)

theorem aux_records_card_le_bound (tm : TransactionManager α) (ms : ℚ)
    (m : ℤ) (hm : 0 < m) (fuel : ℕ) :
    ∀ (cands : List (Finset α)) (L : ℕ),
      (∀ c ∈ cands, c.card = L) → (L : ℤ) ≤ m →
      ∀ r : SupportRecord α,
        r ∈ gen_support_records_aux tm ms (some m) fuel cands L →
          (r.items.card : ℤ) ≤ m := by
  induction fuel with
  | zero =>
    intro cands L _ _ r h
    rw [gen_support_records_aux] at h
    cases h
  | succ fuel ih =>
    intro cands L hcards hL r h
    rw [gen_support_records_aux] at h
    by_cases hc : cands = []
    · rw [if_pos hc] at h
      cases h
    · rw [if_neg hc] at h
      by_cases hbr : maxLengthBreak (some m) (L + 1) = true
      · rw [if_pos hbr] at h
        rw [hcards r.items (mem_scan_map tm ms h).1]
        exact hL
      · rw [if_neg hbr] at h
        rcases List.mem_append.mp h with h1 | h2
        · rw [hcards r.items (mem_scan_map tm ms h1).1]
          exact hL
        · have hmne : m ≠ 0 := ne_of_gt hm
          have hL1 : ((L : ℤ) + 1) ≤ m := by
            by_contra hgt
            apply hbr
            unfold maxLengthBreak
            rw [Bool.and_eq_true, decide_eq_true_eq, decide_eq_true_eq]
            push_neg at hgt
            exact ⟨hmne, by exact_mod_cast hgt⟩
          have hnext : ∀ c ∈ create_next_candidates
              (cands.filter fun c =>
                decide (ms ≤ tm.calc_support c)).toFinset (L + 1),
              c.card = L + 1 := fun c hc =>
            ((mem_create_next_candidates _ _ c).mp hc).2.1
          exact ih _ _ hnext (by exact_mod_cast hL1) r h2

omit [LinearOrder α] in
theorem initial_candidates_card (tm : TransactionManager α) :
    ∀ c ∈ tm.initial_candidates, c.card = 1 := by
  intro c hc
  obtain ⟨i, _, rfl⟩ := List.mem_map.mp hc
  exact Finset.card_singleton i

theorem gen_support_records_max_one (tm : TransactionManager α) (ms : ℚ) :
    gen_support_records tm ms (some 1) =
      (tm.initial_candidates.filter fun c =>
        decide (ms ≤ tm.calc_support c)).map
          fun c => (⟨c, tm.calc_support c⟩ : SupportRecord α) := by
  unfold gen_support_records
  rw [gen_support_records_aux]
  by_cases hc : tm.initial_candidates = []
  · rw [if_pos hc, hc]
    rfl
  · rw [if_neg hc]
    have hbr : maxLengthBreak (some 1) (1 + 1) = true := by decide
    rw [if_pos hbr]

theorem gen_aux_max_length_zero (tm : TransactionManager α) (ms : ℚ)
    (fuel : ℕ) :
    ∀ (cands : List (Finset α)) (L : ℕ),
      gen_support_records_aux tm ms (some 0) fuel cands L =
        gen_support_records_aux tm ms none fuel cands L := by
  induction fuel with
  | zero => intro cands L; rfl
  | succ fuel ih =>
    intro cands L
    rw [gen_support_records_aux, gen_support_records_aux]
    have hbr : maxLengthBreak (some 0) (L + 1) = maxLengthBreak none (L + 1) := by
      unfold maxLengthBreak
      simp
    rw [hbr]
    simp only [ih]

/-- C7: on an empty transaction collection the whole pipeline returns the
empty record sequence (and, being a total function, raises nothing), for
every `min_support > 0`, `max_length` and `min_confidence`. -/
theorem claim_C7_empty_input (ms : ℚ) (ml : Option ℤ) (mc : Option ℚ)
    (_hms : 0 < ms) :
    apriori ([] : List (List α)) ⟨some ms, ml, mc⟩ = [] := rfl

/-- Concrete instantiation of `claim_C7_empty_input`. -/
theorem claim_C7_empty_input_witness :
    (0 : ℚ) < 1
    ∧ apriori ([] : List (List ℕ)) ⟨some 1, none, none⟩ = [] :=
  ⟨by norm_num, claim_C7_empty_input 1 none none (by norm_num)⟩

/-- C10: calling `apriori` with no keyword arguments behaves exactly as
calling it with `min_support = 0.1`, `max_length = None` and
`min_confidence = 0.0`; and the level loop treats `max_length = 0` exactly
as no bound (`0` is falsy in the loop's break test). -/
theorem claim_C10_default_kwargs :
    (∀ ts : List (List α),
      apriori ts ⟨none, none, none⟩ =
        apriori ts ⟨some (1 / 10), none, some 0⟩)
    ∧ ∀ (tm : TransactionManager α) (ms : ℚ),
        gen_support_records tm ms (some 0) =
          gen_support_records tm ms none := by
  constructor
  · intro ts
    rfl
  · intro tm ms
    unfold gen_support_records
    exact gen_aux_max_length_zero tm ms _ _ _

/-! ### Rule derivation on singleton itemsets (C3) -/

/-- C3 fails on the code: on the single transaction `[0]` with
`min_support = 0.1`, the rule deriver produces a (single, empty-antecedent)
statistic for the size-1 record `({0}, 1)` and the pipeline emits one
relation record, not zero. -/
theorem claim_C3_counterexample :
    (gen_ordered_statistics (TransactionManager.create [[0]])
        (⟨{0}, 1⟩ : SupportRecord ℕ)) ≠ []
    ∧ (apriori [[0]] ⟨some (1 / 10), none, none⟩ :
        List (RelationRecord ℕ)).length ≠ 0 := by
  with_unfolding_all decide

/-- C3 amended: for a support record with a singleton itemset the rule
deriver produces exactly one ordered statistic, whose antecedent is empty,
whose consequent is the whole itemset, and whose confidence equals the
record's support (`support / support(∅) = support / 1`); consequently for
the single transaction `[0]` with `min_support = 0.1` and the default
`min_confidence = 0`, the pipeline emits exactly one support record
`({0}, 1)` and exactly one relation record, carrying that statistic. -/
theorem claim_C3_singleton_statistics (ts : List (List α)) (s : Finset α)
    (v : ℚ) (hcard : s.card = 1) :
    (gen_ordered_statistics (TransactionManager.create ts) ⟨s, v⟩ =
      [⟨∅, s, v, v / (TransactionManager.create ts).calc_support s⟩])
    ∧ (gen_support_records (TransactionManager.create [[0]]) (1 / 10 : ℚ)
        none = [⟨({0} : Finset ℕ), 1⟩])
    ∧ ((apriori [[0]] ⟨some (1 / 10), none, none⟩ :
        List (RelationRecord ℕ)) = [⟨{0}, 1, [⟨∅, {0}, 1, 1⟩]⟩]) := by
  refine ⟨?_, by with_unfolding_all decide, by with_unfolding_all decide⟩
  unfold gen_ordered_statistics
  simp only [hcard, Nat.sub_self, List.sublistsLen_zero, List.map_cons,
    List.map_nil, List.toFinset_nil]
  rw [Finset.sdiff_empty, calc_support_empty, div_one]

/-- Concrete instantiation of `claim_C3_singleton_statistics`. -/
theorem claim_C3_singleton_statistics_witness :
    (({0} : Finset ℕ).card = 1)
    ∧ gen_ordered_statistics (TransactionManager.create [[0]])
        (⟨{0}, 1⟩ : SupportRecord ℕ) =
      [⟨∅, {0}, 1,
        1 / (TransactionManager.create [[0]]).calc_support {0}⟩] :=
  ⟨by decide, (claim_C3_singleton_statistics [[0]] {0} 1 (by decide)).1⟩

/-! ### `min_support` validation (C4) -/

/-- C4 fails on the code: the core `apriori` entry point performs no
`min_support` validation; called with `min_support = 0` on `[[0]]` it mines
and returns a non-empty record list instead of raising a configuration
error with nothing computed. -/
theorem claim_C4_counterexample :
    (apriori [[0]] ⟨some 0, none, none⟩ : List (RelationRecord ℕ)) ≠ [] := by
  with_unfolding_all decide

/-- C4 amended: the `min_support <= 0` configuration error is raised only by
the command-line front end `parse_args` (which errors exactly on
`min_support ≤ 0` before any mining); the core `apriori` function performs
no such check, and with `min_support = 0` it proceeds to mine and emit
records. -/
theorem claim_C4_min_support_check_location :
    (∀ s : ℚ, s ≤ 0 →
      parse_args_min_support_check s =
        Except.error "min support must be > 0")
    ∧ (∀ s : ℚ, 0 < s → parse_args_min_support_check s = Except.ok s)
    ∧ ((apriori [[0]] ⟨some 0, none, none⟩ : List (RelationRecord ℕ)) =
        [⟨{0}, 1, [⟨∅, {0}, 1, 1⟩]⟩]) := by
  refine ⟨?_, ?_, by with_unfolding_all decide⟩
  · intro s hs
    unfold parse_args_min_support_check
    rw [if_pos hs]
  · intro s hs
    unfold parse_args_min_support_check
    rw [if_neg (not_le.mpr hs)]

/-- Concrete instantiation of `claim_C4_min_support_check_location`. -/
theorem claim_C4_min_support_check_location_witness :
    ((0 : ℚ) ≤ 0)
    ∧ parse_args_min_support_check 0 =
        Except.error "min support must be > 0" :=
  ⟨le_refl 0, (claim_C4_min_support_check_location).1 0 (le_refl 0)⟩

/-! ### Tabular dump behaviour (C8) -/

theorem string_join_cons (a : String) (l : List String) :
    String.join (a :: l) = a ++ String.join l := by
  rw [String.join_eq, String.join_eq]
  rfl

/-- C8 fails on the code: on a record whose statistics are a non-singleton
statistic followed by a singleton-singleton one, the dumper writes nothing
at all, whereas the claim demands one line per singleton-singleton
statistic. -/
theorem claim_C8_counterexample :
    dumpRecordTsv toString
        (⟨{0, 1, 2}, 1,
          [⟨{0, 1}, {2}, 1, 1⟩, ⟨{0}, {1}, 1, 1⟩]⟩ : RelationRecord ℕ) ≠
      String.join
        ((([⟨{0, 1}, {2}, 1, 1⟩, ⟨{0}, {1}, 1, 1⟩] :
            List (OrderedStatistic ℕ)).filter fun st =>
          decide (st.items_base.card = 1) &&
            decide (st.items_add.card = 1)).map (statLine toString 1)) := by
  with_unfolding_all decide

/-- C8 amended: the tabular dumper writes one tab-separated line per
statistic for the longest prefix of the record's statistics whose
antecedent and consequent are both singletons; at the first statistic with
a non-singleton antecedent or consequent it stops, skipping that statistic
and every later one (even later singleton-only statistics). -/
theorem claim_C8_tsv_prefix (itemStr : α → String) (r : RelationRecord α) :
    dumpRecordTsv itemStr r =
      String.join
        ((r.ordered_statistics.takeWhile fun st =>
          decide (st.items_base.card = 1) &&
            decide (st.items_add.card = 1)).map
              (statLine itemStr r.support)) := by
  unfold dumpRecordTsv
  suffices h : ∀ (v : ℚ) (l : List (OrderedStatistic α)),
      dump_as_two_item_tsv itemStr v l =
        String.join ((l.takeWhile fun st =>
          decide (st.items_base.card = 1) &&
            decide (st.items_add.card = 1)).map (statLine itemStr v)) from
    h r.support r.ordered_statistics
  intro v l
  induction l with
  | nil => rfl
  | cons st rest ih =>
    by_cases h1 : st.items_base.card = 1
    · by_cases h2 : st.items_add.card = 1
      · rw [dump_as_two_item_tsv, if_neg (not_not_intro h1),
          if_neg (not_not_intro h2),
          List.takeWhile_cons_of_pos (by simp [h1, h2]), List.map_cons,
          string_join_cons, ih]
      · rw [dump_as_two_item_tsv, if_neg (not_not_intro h1), if_pos h2,
          List.takeWhile_cons_of_neg (by simp [h2])]
        rfl
    · rw [dump_as_two_item_tsv, if_pos h1,
        List.takeWhile_cons_of_neg (by simp [h1])]
      rfl

/-! ### Sufficiency of the fuel bound for the level loop

The Python loop `while candidates:` terminates because level-`L` candidates
are `L`-element subsets of the fixed distinct-item universe; the lemmas
below prove that the fuel `tm.items.length + 1` used in
`gen_support_records` is already past that point, i.e. adding any amount of
extra fuel leaves the output unchanged. -/

theorem aux_eq_nil (tm : TransactionManager α) (ms : ℚ) (ml : Option ℤ)
    (fuel L : ℕ) :
    gen_support_records_aux tm ms ml fuel [] L = [] := by
  cases fuel with
  | zero => rfl
  | succ f =>
    rw [gen_support_records_aux]
    rw [if_pos rfl]

theorem aux_succ_eq (tm : TransactionManager α) (ms : ℚ) (ml : Option ℤ)
    (fuel : ℕ) (cands : List (Finset α)) (L : ℕ) :
    gen_support_records_aux tm ms ml (fuel + 1) cands L =
      if cands = [] then []
      else
        if maxLengthBreak ml (L + 1) then
          (cands.filter fun c => decide (ms ≤ tm.calc_support c)).map
            fun c => (⟨c, tm.calc_support c⟩ : SupportRecord α)
        else
          ((cands.filter fun c => decide (ms ≤ tm.calc_support c)).map
            fun c => (⟨c, tm.calc_support c⟩ : SupportRecord α)) ++
            gen_support_records_aux tm ms ml fuel
              (create_next_candidates
                (cands.filter fun c =>
                  decide (ms ≤ tm.calc_support c)).toFinset (L + 1))
              (L + 1) := rfl

theorem aux_fuel_mono (tm : TransactionManager α) (ms : ℚ) (ml : Option ℤ)
    (U : Finset α) (extra : ℕ) :
    ∀ (fuel : ℕ) (cands : List (Finset α)) (L : ℕ),
      (∀ c ∈ cands, c.card = L ∧ c ⊆ U) → U.card + 1 ≤ L + fuel →
      gen_support_records_aux tm ms ml (fuel + extra) cands L =
        gen_support_records_aux tm ms ml fuel cands L := by
  intro fuel
  induction fuel with
  | zero =>
    intro cands L hc hbound
    cases cands with
    | nil => rw [aux_eq_nil, aux_eq_nil]
    | cons c rest =>
      exfalso
      obtain ⟨hcard, hsub⟩ := hc c (List.mem_cons_self c rest)
      have hle := Finset.card_le_card hsub
      omega
  | succ fuel ih =>
    intro cands L hc hbound
    have hshift : fuel + 1 + extra = (fuel + extra) + 1 := by omega
    rw [hshift, aux_succ_eq, aux_succ_eq]
    by_cases hnil : cands = []
    · rw [if_pos hnil, if_pos hnil]
    · rw [if_neg hnil, if_neg hnil]
      by_cases hbr : maxLengthBreak ml (L + 1) = true
      · rw [if_pos hbr, if_pos hbr]
      · rw [if_neg hbr, if_neg hbr]
        refine congrArg _ ?_
        refine ih _ (L + 1) ?_ (by omega)
        intro c hcnext
        obtain ⟨hsup, hcard, _⟩ :=
          (mem_create_next_candidates _ _ c).mp hcnext
        refine ⟨hcard, hsup.trans ?_⟩
        intro x hx
        rw [Finset.mem_sup] at hx
        obtain ⟨s, hs, hxs⟩ := hx
        rw [List.mem_toFinset, List.mem_filter] at hs
        exact (hc s hs.1).2 hxs

theorem gen_support_records_fuel_irrelevant (tm : TransactionManager α)
    (ms : ℚ) (ml : Option ℤ) (extra : ℕ) :
    gen_support_records_aux tm ms ml (tm.items.length + 1 + extra)
      tm.initial_candidates 1 = gen_support_records tm ms ml := by
  unfold gen_support_records
  refine aux_fuel_mono tm ms ml tm.items.toFinset extra
    (tm.items.length + 1) tm.initial_candidates 1 ?_ ?_
  · intro c hc
    obtain ⟨i, hi, rfl⟩ := List.mem_map.mp hc
    refine ⟨Finset.card_singleton i, ?_⟩
    rw [Finset.singleton_subset_iff, List.mem_toFinset]
    exact hi
  · have hle := List.toFinset_card_le tm.items
    omega

/-! ### Full characterization of the scanner output (C6)

`level_candidates` is the candidate sequence of the spec's level-wise state
machine; the scanner's record list is proved to consist exactly of the
passing candidates of the reached levels, settling the emit-iff claim at
every level, not only level 1. -/

theorem level_candidates_succ_succ (tm : TransactionManager α) (ms : ℚ)
    (ml : Option ℤ) (L0 : ℕ) :
    level_candidates tm ms ml (L0 + 2) =
      if level_candidates tm ms ml (L0 + 1) = [] then []
      else if maxLengthBreak ml (L0 + 2) then []
      else
        create_next_candidates
          ((level_candidates tm ms ml (L0 + 1)).filter fun c =>
            decide (ms ≤ tm.calc_support c)).toFinset (L0 + 2) := rfl

theorem level_candidates_empty_mono (tm : TransactionManager α) (ms : ℚ)
    (ml : Option ℤ) (L0 k : ℕ)
    (h : level_candidates tm ms ml (L0 + 1) = []) :
    level_candidates tm ms ml (L0 + 1 + k) = [] := by
  induction k with
  | zero => exact h
  | succ k ih =>
    have he : L0 + 1 + (k + 1) = (L0 + k) + 2 := by omega
    rw [he, level_candidates_succ_succ]
    have he2 : L0 + k + 1 = L0 + 1 + k := by omega
    rw [he2, ih, if_pos rfl]

theorem level_candidates_spec (tm : TransactionManager α) (ms : ℚ)
    (ml : Option ℤ) :
    ∀ (L0 : ℕ) (c : Finset α), c ∈ level_candidates tm ms ml (L0 + 1) →
      c.card = L0 + 1 ∧ c ⊆ tm.items.toFinset := by
  intro L0
  induction L0 with
  | zero =>
    intro c hc
    obtain ⟨i, hi, rfl⟩ := List.mem_map.mp hc
    refine ⟨Finset.card_singleton i, ?_⟩
    rw [Finset.singleton_subset_iff, List.mem_toFinset]
    exact hi
  | succ L0 ih =>
    intro c hc
    rw [show L0 + 1 + 1 = L0 + 2 from rfl, level_candidates_succ_succ] at hc
    by_cases h1 : level_candidates tm ms ml (L0 + 1) = []
    · rw [if_pos h1] at hc
      exact absurd hc (by simp)
    · rw [if_neg h1] at hc
      by_cases h2 : maxLengthBreak ml (L0 + 2) = true
      · rw [if_pos h2] at hc
        exact absurd hc (by simp)
      · rw [if_neg h2] at hc
        obtain ⟨hsub, hcard, -⟩ := (mem_create_next_candidates _ _ c).mp hc
        refine ⟨hcard, hsub.trans ?_⟩
        intro x hx
        rw [Finset.mem_sup] at hx
        obtain ⟨s, hs, hxs⟩ := hx
        rw [List.mem_toFinset, List.mem_filter] at hs
        exact (ih s hs.1).2 hxs

theorem aux_mem_iff_level_candidates (tm : TransactionManager α) (ms : ℚ)
    (ml : Option ℤ) :
    ∀ (fuel L0 : ℕ) (r : SupportRecord α),
      tm.items.toFinset.card + 1 ≤ (L0 + 1) + fuel →
      (r ∈ gen_support_records_aux tm ms ml fuel
          (level_candidates tm ms ml (L0 + 1)) (L0 + 1) ↔
        ∃ L, L0 + 1 ≤ L ∧ r.items ∈ level_candidates tm ms ml L ∧
          ms ≤ tm.calc_support r.items ∧
          r.support = tm.calc_support r.items) := by
  intro fuel
  induction fuel with
  | zero =>
    intro L0 r hb
    rw [gen_support_records_aux]
    simp only [List.not_mem_nil, false_iff]
    rintro ⟨L, hL, hmem, -, -⟩
    obtain ⟨Lm, rfl⟩ : ∃ Lm, L = Lm + 1 := ⟨L - 1, by omega⟩
    obtain ⟨hcard, hsubU⟩ := level_candidates_spec tm ms ml Lm r.items hmem
    have hle := Finset.card_le_card hsubU
    omega
  | succ fuel ih =>
    intro L0 r hb
    by_cases hnil : level_candidates tm ms ml (L0 + 1) = []
    · rw [hnil, aux_eq_nil]
      simp only [List.not_mem_nil, false_iff]
      rintro ⟨L, hL, hmem, -, -⟩
      obtain ⟨k, rfl⟩ : ∃ k, L = L0 + 1 + k := ⟨L - (L0 + 1), by omega⟩
      rw [level_candidates_empty_mono tm ms ml L0 k hnil] at hmem
      exact absurd hmem (by simp)
    · rw [aux_succ_eq, if_neg hnil,
        show L0 + 1 + 1 = L0 + 2 from rfl]
      by_cases hbr : maxLengthBreak ml (L0 + 2) = true
      · rw [if_pos hbr]
        constructor
        · intro h
          obtain ⟨hin, hval, hms⟩ := mem_scan_map tm ms h
          exact ⟨L0 + 1, le_refl _, hin, hval ▸ hms, hval⟩
        · rintro ⟨L, hL, hmem, hms, hval⟩
          rcases eq_or_lt_of_le hL with rfl | hgt
          · obtain ⟨ri, rs⟩ := r
            simp only at hmem hms hval ⊢
            subst hval
            exact mem_scan_map_of tm ms hmem hms
          · exfalso
            have h2 : level_candidates tm ms ml (L0 + 2) = [] := by
              rw [level_candidates_succ_succ, if_neg hnil, if_pos hbr]
            obtain ⟨k, rfl⟩ : ∃ k, L = L0 + 2 + k :=
              ⟨L - (L0 + 2), by omega⟩
            have h3 : level_candidates tm ms ml (L0 + 2 + k) = [] :=
              level_candidates_empty_mono tm ms ml (L0 + 1) k h2
            rw [h3] at hmem
            exact absurd hmem (by simp)
      · rw [if_neg hbr]
        have hIH := ih (L0 + 1) r (by omega)
        rw [show L0 + 1 + 1 = L0 + 2 from rfl] at hIH
        have hnext : level_candidates tm ms ml (L0 + 2) =
            create_next_candidates
              ((level_candidates tm ms ml (L0 + 1)).filter fun c =>
                decide (ms ≤ tm.calc_support c)).toFinset (L0 + 2) := by
          rw [level_candidates_succ_succ, if_neg hnil, if_neg hbr]
        rw [← hnext, List.mem_append, hIH]
        constructor
        · rintro (h | h)
          · obtain ⟨hin, hval, hms⟩ := mem_scan_map tm ms h
            exact ⟨L0 + 1, le_refl _, hin, hval ▸ hms, hval⟩
          · obtain ⟨L, hL, hrest⟩ := h
            exact ⟨L, by omega, hrest⟩
        · rintro ⟨L, hL, hmem, hms, hval⟩
          rcases eq_or_lt_of_le hL with rfl | hgt
          · left
            obtain ⟨ri, rs⟩ := r
            simp only at hmem hms hval ⊢
            subst hval
            exact mem_scan_map_of tm ms hmem hms
          · right
            exact ⟨L, by omega, hmem, hms, hval⟩

/-- C6: every record emitted by the level-wise scanner carries the exact
support of its itemset and passed the `min_support` filter; a singleton
record is emitted iff its itemset is an initial candidate with sufficient
support; with `max_length = 1` the scanner's output is literally the
filtered-and-mapped initial candidate list, an expression in which the
candidate generator does not occur; with a configured positive bound `m` no
emitted itemset exceeds size `m`; and, in full, a record is in the
scanner's output iff its itemset is a candidate of some level of the
level-wise state machine (`level_candidates`) whose support passes
`min_support` — support at least `min_support` is both necessary and
sufficient for a candidate of any level to be emitted. -/
theorem claim_C6_support_scanner (tm : TransactionManager α) (ms : ℚ)
    (ml : Option ℤ) :
    (∀ r ∈ gen_support_records tm ms ml,
        r.support = tm.calc_support r.items ∧ ms ≤ r.support)
    ∧ (∀ (c : Finset α) (v : ℚ),
        ((⟨c, v⟩ : SupportRecord α) ∈ gen_support_records tm ms ml ∧
            c.card = 1) ↔
          (c ∈ tm.initial_candidates ∧ v = tm.calc_support c ∧ ms ≤ v))
    ∧ gen_support_records tm ms (some 1) =
        (tm.initial_candidates.filter fun c =>
          decide (ms ≤ tm.calc_support c)).map
            (fun c => (⟨c, tm.calc_support c⟩ : SupportRecord α))
    ∧ (∀ m : ℤ, 0 < m → ∀ r ∈ gen_support_records tm ms (some m),
        (r.items.card : ℤ) ≤ m)
    ∧ (∀ r : SupportRecord α,
        r ∈ gen_support_records tm ms ml ↔
          ∃ L, 1 ≤ L ∧ r.items ∈ level_candidates tm ms ml L ∧
            ms ≤ tm.calc_support r.items ∧
            r.support = tm.calc_support r.items) := by
  refine ⟨fun r h => aux_records_sound tm ms ml _ _ _ r h, ?_, ?_, ?_, ?_⟩
  · intro c v
    constructor
    · rintro ⟨hmem, hcard⟩
      unfold gen_support_records at hmem
      rcases aux_mem_split tm ms ml _ _ _ hmem with h1 | h2
      · obtain ⟨hin, hval, hms⟩ := mem_scan_map tm ms h1
        exact ⟨hin, hval, hms⟩
      · exfalso
        have hnext : ∀ cc ∈ create_next_candidates
            (tm.initial_candidates.filter fun cc =>
              decide (ms ≤ tm.calc_support cc)).toFinset (1 + 1),
            cc.card = 1 + 1 := fun cc hcc =>
          ((mem_create_next_candidates _ _ cc).mp hcc).2.1
        have := aux_records_card_ge tm ms ml _ _ _ hnext _ h2
        simp only [hcard] at this
        omega
    · rintro ⟨hin, rfl, hms⟩
      refine ⟨?_, initial_candidates_card tm c hin⟩
      unfold gen_support_records
      exact aux_mem_of_mem_scan tm ms ml _ _ _ hin hms
  · exact gen_support_records_max_one tm ms
  · intro m hm r h
    exact aux_records_card_le_bound tm ms m hm _ _ _
      (initial_candidates_card tm) (by omega) r h
  · intro r
    have hb : tm.items.toFinset.card + 1 ≤ (0 + 1) +
        (tm.items.length + 1) := by
      have hle := List.toFinset_card_le tm.items
      omega
    exact aux_mem_iff_level_candidates tm ms ml (tm.items.length + 1) 0 r hb

/-- Concrete instantiation of `claim_C6_support_scanner`: with
`max_length = 1` on the two-item transaction `[0, 1]`, the emitted record
for `{0}` has size at most 1. -/
theorem claim_C6_support_scanner_witness :
    (0 : ℤ) < 1
    ∧ (⟨({0} : Finset ℕ), 1⟩ : SupportRecord ℕ) ∈
        gen_support_records (TransactionManager.create [[0, 1]])
          (1 / 10 : ℚ) (some 1)
    ∧ ((({0} : Finset ℕ).card : ℤ) ≤ 1) :=
  ⟨by decide, by with_unfolding_all decide,
    (claim_C6_support_scanner (TransactionManager.create [[0, 1]])
        (1 / 10 : ℚ) (some 1)).2.2.2.1 1 (by decide) ⟨{0}, 1⟩
      (by with_unfolding_all decide)⟩
